import Mathlib

/-!
Verification development for the LogisTech warehouse system
(src/warehouse_system.py).

The embedding below translates the in-memory core of the Python source:
the StorageBin / Package data model, the best-fit allocator
(find_bin_binary_search), the conveyor loop (run_conveyor), the truck
load optimizer (optimize_truck_space), and the LIFO truck stack
(load_truck / undo_last_load).  Database and logging side effects are
represented by the values the core computes: the bin list that would be
persisted and the list of emitted events.  Python integers are unbounded,
so sizes, capacities and usage are Nat (the data model only ever holds
non-negative values) and the one subtraction in the source,
available_space, is computed in Int exactly as Python computes it.
-/

/-- StorageBin (source lines 182-199): bin_id, capacity, location_code
are set by the constructor; used_space is mutable state (0 at
construction, overwritten by load_inventory). -/
structure StorageBin where
  bin_id : Nat
  capacity : Nat
  location_code : String
  used_space : Nat
  deriving DecidableEq, Repr

/-- available_space (source lines 194-195): capacity - used_space,
computed in Int because Python subtraction can go negative. -/
def StorageBin.available_space (b : StorageBin) : Int :=
  (b.capacity : Int) - (b.used_space : Int)

/-- occupy_space (source lines 189-192): raises ValueError (modelled as
none) when used_space + amount > capacity, otherwise returns the bin
with used_space increased by amount.  A raise in Python leaves the bin
unmodified, which the Option embedding captures by returning no bin. -/
def StorageBin.occupy_space (b : StorageBin) (amount : Nat) : Option StorageBin :=
  if b.used_space + amount > b.capacity then none
  else some { b with used_space := b.used_space + amount }

/-- Package (source lines 202-206). -/
structure Package where
  tracking_id : String
  size : Nat
  destination : String
  deriving DecidableEq, Repr

/-- The predicate tested at line 105 of the source:
curr.capacity >= pkg.size and curr.available_space() >= pkg.size. -/
def binFits (b : StorageBin) (size : Nat) : Prop :=
  size ≤ b.capacity ∧ (size : Int) ≤ b.available_space

instance (b : StorageBin) (size : Nat) : Decidable (binFits b size) :=
  inferInstanceAs (Decidable (size ≤ b.capacity ∧ (size : Int) ≤ b.available_space))

/-- The while loop of find_bin_binary_search (source lines 100-109),
with low and high as Int exactly as in Python (high starts at len-1,
which is -1 on an empty list, and can go to -1 during the search).
The loop runs at most bins.length iterations, counted by fuel; the
callers pass fuel = bins.length, which the lemmas below show is enough.
best records the index together with the bin stored in best_fit (the
index models the Python object reference, so the conveyor can write the
updated bin back to the list).  The none arm of the lookup is
unreachable from the entry point, where 0 <= low and high < len hold
throughout. -/
def find_loop (bins : List StorageBin) (size : Nat) :
    Nat → Int → Int → Option (Nat × StorageBin) → Option (Nat × StorageBin)
  | 0, _, _, best => best
  | fuel + 1, low, high, best =>
    if low ≤ high then
      match bins[((low + high) / 2).toNat]? with
      | none => best
      | some curr =>
        if binFits curr size then
          find_loop bins size fuel low ((low + high) / 2 - 1)
            (some (((low + high) / 2).toNat, curr))
        else
          find_loop bins size fuel ((low + high) / 2 + 1) high best
    else best

/-- find_bin_binary_search (source lines 94-111): low = 0,
high = len(bins) - 1, best_fit = None. -/
def find_bin_binary_search (bins : List StorageBin) (pkg : Package) :
    Option (Nat × StorageBin) :=
  find_loop bins pkg.size bins.length 0 ((bins.length : Int) - 1) none

/-- Events emitted by the conveyor (the log_action calls and the two
failure prints in run_conveyor, source lines 76-92). -/
inductive ConvEvent where
  | stored (tracking_id : String) (bin_id : Nat)
  | noBin (tracking_id : String)
  | storeError (tracking_id : String)
  deriving DecidableEq, Repr

/-- The tracking id every conveyor event carries. -/
def ConvEvent.trackingOf : ConvEvent → String
  | .stored t _ => t
  | .noBin t => t
  | .storeError t => t

/-- One iteration of the run_conveyor loop body (source lines 80-92):
find a bin; on success occupy it and record STORED; if occupy raises,
the exception is caught and the state is unchanged; if no bin is found,
the state is unchanged and a failure is reported. -/
def process_package (bins : List StorageBin) (pkg : Package) :
    List StorageBin × ConvEvent :=
  match find_bin_binary_search bins pkg with
  | some (i, target) =>
    match target.occupy_space pkg.size with
    | some b => (bins.set i b, ConvEvent.stored pkg.tracking_id target.bin_id)
    | none => (bins, ConvEvent.storeError pkg.tracking_id)
  | none => (bins, ConvEvent.noBin pkg.tracking_id)

/-- run_conveyor (source lines 76-92): drain the queue in FIFO order,
one package at a time, never aborting the batch.  The queue is the list
of packages in arrival order; the result is the final bin list and the
events in emission order. -/
def run_conveyor (bins : List StorageBin) :
    List Package → List StorageBin × List ConvEvent
  | [] => (bins, [])
  | pkg :: rest =>
    let step := process_package bins pkg
    let restRun := run_conveyor step.1 rest
    (restRun.1, step.2 :: restRun.2)

/-- load_truck (source lines 113-116): append on top of the stack. -/
def load_truck (stack : List Package) (pkg : Package) : List Package :=
  stack ++ [pkg]

/-- undo_last_load (source lines 118-125): pop the top of the stack and
return it; on an empty stack return None and leave the stack alone. -/
def undo_last_load (stack : List Package) : List Package × Option Package :=
  match stack.getLast? with
  | some pkg => (stack.dropLast, some pkg)
  | none => (stack, none)

/-- Total size of a list of packages. -/
def sizeSum (l : List Package) : Nat := (l.map Package.size).sum

/-- The inner recursive function solve of optimize_truck_space (source
lines 132-151), with the closure-captured best_combo and max_filled
threaded as an explicit pair.  At node entry the best is updated when
current_size strictly exceeds max_filled; then, unless the input is
exhausted, the head package is included when it fits under max_cap
(include branch explored first, as in the source) and then skipped. -/
def solve (max_cap : Nat) :
    List Package → List Package → Nat → List Package × Nat → List Package × Nat
  | [], current_combo, current_size, best =>
    if current_size > best.2 then (current_combo, current_size) else best
  | pkg :: rest, current_combo, current_size, best =>
    let best1 := if current_size > best.2 then (current_combo, current_size) else best
    let best2 :=
      if current_size + pkg.size ≤ max_cap then
        solve max_cap rest (current_combo ++ [pkg]) (current_size + pkg.size) best1
      else best1
    solve max_cap rest current_combo current_size best2

/-- optimize_truck_space (source lines 127-154): solve(0, [], 0) and
return best_combo. -/
def optimize_truck_space (packages : List Package) (max_cap : Nat) : List Package :=
  (solve max_cap packages [] 0 ([], 0)).1

/-- Fuel-indexed variant of solve, counting recursion depth: none means
the depth budget was exhausted before the exploration finished.  Used to
state that the recursion depth of the source is bounded by the length of
the package list. -/
def solveFuel (max_cap : Nat) :
    Nat → List Package → List Package → Nat → List Package × Nat →
      Option (List Package × Nat)
  | 0, _, _, _, _ => none
  | _ + 1, [], current_combo, current_size, best =>
    some (if current_size > best.2 then (current_combo, current_size) else best)
  | fuel + 1, pkg :: rest, current_combo, current_size, best =>
    let best1 := if current_size > best.2 then (current_combo, current_size) else best
    match (if current_size + pkg.size ≤ max_cap then
             solveFuel max_cap fuel rest (current_combo ++ [pkg])
               (current_size + pkg.size) best1
           else some best1) with
    | none => none
    | some best2 => solveFuel max_cap fuel rest current_combo current_size best2

/-- A row of the bins table, as fetched by load_inventory (source line
61): bin_id, capacity, current_usage, location_code. -/
structure BinRow where
  bin_id : Nat
  capacity : Nat
  current_usage : Nat
  location_code : String
  deriving DecidableEq, Repr

/-- Source lines 65-68: StorageBin(r[0], r[1], r[3]) followed by
b.used_space = r[2]. -/
def rowToBin (r : BinRow) : StorageBin :=
  { bin_id := r.bin_id, capacity := r.capacity,
    location_code := r.location_code, used_space := r.current_usage }

/-- The comparison StorageBin.__lt__ sorts by (source lines 198-199):
capacity only.  Python list.sort() is a stable sort driven by this
comparison, which is modelled by insertion sort over the reflexive
closure of the comparison (see load_inventory below). -/
def capLe (a b : StorageBin) : Prop := a.capacity ≤ b.capacity

instance : DecidableRel capLe :=
  fun a b => inferInstanceAs (Decidable (a.capacity ≤ b.capacity))

instance : IsTotal StorageBin capLe := ⟨fun a b => Nat.le_total a.capacity b.capacity⟩

instance : IsTrans StorageBin capLe := ⟨fun _ _ _ hab hbc => Nat.le_trans hab hbc⟩

/-- load_inventory (source lines 58-71): build StorageBin values from
the fetched rows and sort them.  list.sort() uses only __lt__ (capacity)
and is stable, so it is modelled as the stable insertion sort by
capacity: equal-capacity bins keep their fetch order. -/
def load_inventory (rows : List BinRow) : List StorageBin :=
  List.insertionSort capLe (rows.map rowToBin)

/-- Sortedness by the key the spec asks for: capacity ascending with
ties broken by bin id ascending. -/
def capIdLe (a b : StorageBin) : Prop :=
  a.capacity < b.capacity ∨ (a.capacity = b.capacity ∧ a.bin_id ≤ b.bin_id)

instance : DecidableRel capIdLe := fun a b =>
  inferInstanceAs (Decidable (a.capacity < b.capacity ∨
    (a.capacity = b.capacity ∧ a.bin_id ≤ b.bin_id)))


/-- Postcondition of a completed search: none means no bin fits; a
returned index carries the fitting bin at the leftmost fitting
position. -/
def searchPost (bins : List StorageBin) (size : Nat) : Option (Nat × StorageBin) → Prop
  | none => ∀ (i : Nat) (hi : i < bins.length), ¬ binFits bins[i] size
  | some (k, b) => ∃ hk : k < bins.length, bins[k] = b ∧ binFits b size ∧
      ∀ (j : Nat) (hj : j < bins.length), j < k → ¬ binFits bins[j] size

/-- The seeded bins of the main program (source lines 214-220), already
in capacity order with used space 0. -/
def binsA : List StorageBin :=
  [⟨1, 50, "A1", 0⟩, ⟨2, 100, "A2", 0⟩, ⟨3, 150, "B1", 0⟩,
   ⟨4, 200, "B2", 0⟩, ⟨5, 500, "C1", 0⟩]

/-- The incoming packages of the main program (source lines 234-238). -/
def pkgsA : List Package :=
  [⟨"PKG_SMALL", 45, "NY"⟩, ⟨"PKG_HUGE", 120, "CA"⟩, ⟨"PKG_MID", 30, "TX"⟩]

/-- The first Scenario A package. -/
def pkgA45 : Package := ⟨"PKG_SMALL", 45, "NY"⟩

/-- Scenario B cargo (source lines 251-255). -/
def boxA : Package := ⟨"BOX_A", 50, "NY"⟩

def boxB : Package := ⟨"BOX_B", 60, "CA"⟩

def boxC : Package := ⟨"BOX_C", 40, "TX"⟩

def cargoB : List Package := [boxA, boxB, boxC]

/-- Scenario D bins: equal capacity 100, used space 90 and 0. -/
def binD90 : StorageBin := ⟨1, 100, "D1", 90⟩

def binD0 : StorageBin := ⟨2, 100, "D2", 0⟩

def pkgD : Package := ⟨"PKG_D", 50, "TX"⟩

/-- Registry refuting the completeness half of the search contract:
sorted by capacity, the smallest bin is empty and fits a size-5 package,
the larger two are full. -/
def cexBins : List StorageBin :=
  [⟨1, 10, "L1", 0⟩, ⟨2, 20, "L2", 20⟩, ⟨3, 30, "L3", 30⟩]

def cexBin : StorageBin := ⟨1, 10, "L1", 0⟩

def cexPkg : Package := ⟨"PKG_X", 5, "NY"⟩

/-- Two equal-capacity rows fetched with the larger bin id first. -/
def cexRows : List BinRow := [⟨2, 100, 0, "L2"⟩, ⟨1, 100, 0, "L1"⟩]

/-- Scenario C packages. -/
def pkgTA : Package := ⟨"A", 10, "NY"⟩

def pkgTB : Package := ⟨"B", 20, "CA"⟩

def pkgTC : Package := ⟨"C", 30, "TX"⟩

/-- Bin used by the occupy witnesses. -/
def binW : StorageBin := ⟨7, 10, "W1", 8⟩

def binW2 : StorageBin := ⟨7, 10, "W1", 3⟩

/-- C5: occupy_space fails (the ValueError, the CapacityExceeded of the
spec, modelled as none) iff used_space + amount > capacity; on success
the used space grows by exactly amount and every other field is
unchanged.  On failure the check precedes the mutation, so no updated
bin is produced and the bin state is left exactly as it was. -/
theorem occupy_space_spec (b : StorageBin) (amount : Nat) :
    (b.occupy_space amount = none ↔ b.capacity < b.used_space + amount) ∧
    (∀ b2, b.occupy_space amount = some b2 →
      b2.used_space = b.used_space + amount ∧ b2.capacity = b.capacity ∧
      b2.bin_id = b.bin_id ∧ b2.location_code = b.location_code) := by
  by_cases h : b.used_space + amount > b.capacity
  · refine ⟨by simp [StorageBin.occupy_space, h], fun b2 hb2 => ?_⟩
    simp [StorageBin.occupy_space, h] at hb2
  · refine ⟨by simp [StorageBin.occupy_space, h], fun b2 hb2 => ?_⟩
    simp [StorageBin.occupy_space, h] at hb2
    subst hb2
    exact ⟨rfl, rfl, rfl, rfl⟩

theorem occupy_space_spec_witness :
    StorageBin.occupy_space binW 5 = none ∧
    (⟨7, 10, "W1", 7⟩ : StorageBin).used_space = binW2.used_space + 4 :=
  ⟨(occupy_space_spec binW 5).1.mpr (by decide),
   ((occupy_space_spec binW2 4).2 ⟨7, 10, "W1", 7⟩ (by decide)).1⟩

/-- C7: LIFO stack laws for the truck: popping right after a push
returns the pushed package and restores the previous stack; popping the
empty stack returns none and leaves it empty; pushing A, B, C and then
popping twice yields C then B, leaving the stack [A]. -/
theorem truck_stack_lifo :
    (∀ (stack : List Package) (x : Package),
      undo_last_load (load_truck stack x) = (stack, some x)) ∧
    undo_last_load [] = ([], none) ∧
    undo_last_load (load_truck (load_truck (load_truck [] pkgTA) pkgTB) pkgTC) =
      ([pkgTA, pkgTB], some pkgTC) ∧
    undo_last_load [pkgTA, pkgTB] = ([pkgTA], some pkgTB) := by
  refine ⟨fun stack x => ?_, rfl, by decide, by decide⟩
  simp [load_truck, undo_last_load, List.getLast?_concat, List.dropLast_concat]

/-- C9: Scenario A end to end: from the seeded empty bins, the packages
of sizes 45, 120, 30 land in the bins of capacity 50, 150 and 100
respectively, and the capacity-50 bin ends with only 5 available. -/
theorem scenario_a_allocation :
    run_conveyor binsA pkgsA =
      ([⟨1, 50, "A1", 45⟩, ⟨2, 100, "A2", 30⟩, ⟨3, 150, "B1", 120⟩,
        ⟨4, 200, "B2", 0⟩, ⟨5, 500, "C1", 0⟩],
       [ConvEvent.stored "PKG_SMALL" 1, ConvEvent.stored "PKG_HUGE" 3,
        ConvEvent.stored "PKG_MID" 2]) ∧
    StorageBin.available_space ⟨1, 50, "A1", 45⟩ = 5 := by decide

/-- The fuel-indexed optimizer exploration finishes whenever the fuel
exceeds the length of the remaining package list: the recursion descends
along the list, so its depth is bounded by the remaining suffix. -/
theorem solveFuel_eq (max_cap : Nat) :
    ∀ (fuel : Nat) (remaining current_combo : List Package)
      (current_size : Nat) (best : List Package × Nat),
      remaining.length < fuel →
      solveFuel max_cap fuel remaining current_combo current_size best =
        some (solve max_cap remaining current_combo current_size best) := by
  intro fuel
  induction fuel with
  | zero => intro remaining _ _ _ h; exact absurd h (Nat.not_lt_zero _)
  | succ fuel ih =>
    intro remaining cur sz best h
    cases remaining with
    | nil => simp [solveFuel, solve]
    | cons pkg rest =>
      have hr : rest.length < fuel := by
        simp only [List.length_cons] at h; omega
      simp only [solveFuel, solve]
      by_cases hc : sz + pkg.size ≤ max_cap
      · rw [if_pos hc, if_pos hc, ih rest (cur ++ [pkg]) (sz + pkg.size) _ hr]
        exact ih rest cur sz _ hr
      · rw [if_neg hc, if_neg hc]
        exact ih rest cur sz _ hr

/-- C10: the optimizer terminates on every input: the exploration of
optimize_truck_space recurses only on the tail of the package list, so
fuel length + 1 always suffices and the fuel-indexed run computes the
same value as the total structural function solve. -/
theorem optimize_truck_space_terminates (packages : List Package) (max_cap : Nat) :
    solveFuel max_cap (packages.length + 1) packages [] 0 ([], 0) =
      some (solve max_cap packages [] 0 ([], 0)) :=
  solveFuel_eq max_cap (packages.length + 1) packages [] 0 ([], 0)
    (Nat.lt_succ_self _)

/-- Inserting a bin of capacity c into a list moves it past only bins of
strictly smaller capacity, so at capacity c it lands in front. -/
theorem filter_orderedInsert_of_cap (c : Nat) (a : StorageBin) :
    ∀ l : List StorageBin, a.capacity = c →
      (List.orderedInsert capLe a l).filter (fun b => b.capacity == c) =
        a :: l.filter (fun b => b.capacity == c) := by
  intro l hc
  induction l with
  | nil => simp [List.orderedInsert, hc]
  | cons b l ih =>
    by_cases hab : capLe a b
    · simp [List.orderedInsert, hab, hc]
    · have hbc : b.capacity ≠ c := by
        unfold capLe at hab; omega
      simp [List.orderedInsert, hab, hbc, ih]

/-- Inserting a bin whose capacity is not c does not disturb the
capacity-c bins. -/
theorem filter_orderedInsert_of_ne (c : Nat) (a : StorageBin) :
    ∀ l : List StorageBin, a.capacity ≠ c →
      (List.orderedInsert capLe a l).filter (fun b => b.capacity == c) =
        l.filter (fun b => b.capacity == c) := by
  intro l hc
  induction l with
  | nil => simp [List.orderedInsert, hc]
  | cons b l ih =>
    by_cases hab : capLe a b
    · simp [List.orderedInsert, hab, hc]
    · simp [List.orderedInsert, hab, List.filter_cons, ih]

/-- The insertion sort by capacity is stable: at every capacity the
sorted list keeps exactly the input sublist, in input order. -/
theorem filter_insertionSort_cap (c : Nat) :
    ∀ l : List StorageBin,
      (List.insertionSort capLe l).filter (fun b => b.capacity == c) =
        l.filter (fun b => b.capacity == c) := by
  intro l
  induction l with
  | nil => rfl
  | cons a l ih =>
    by_cases hc : a.capacity = c
    · rw [List.insertionSort, filter_orderedInsert_of_cap c a _ hc, ih]
      simp [hc]
    · rw [List.insertionSort, filter_orderedInsert_of_ne c a _ hc, ih]
      simp [hc]

/-- C2 counterexample: two capacity-100 bins fetched as ids [2, 1].  The
sort key (StorageBin lt, source lines 198-199) is capacity alone and the
sort is stable, so the loaded registry keeps the fetch order [2, 1] and
is not ordered by (capacity, bin id): the claimed tie-break on bin id
does not hold for every input. -/
theorem load_inventory_ties_cex :
    (load_inventory cexRows).map StorageBin.bin_id = [2, 1] ∧
    ¬ List.Pairwise capIdLe (load_inventory cexRows) := by decide

/-- C2 amended: load_inventory replaces the in-memory collection with
the fetched bins sorted by capacity ascending (a permutation of the
fetched rows); ties between equal-capacity bins keep the fetch order
(the sublist at each capacity is exactly the input sublist), they are
not re-ordered by bin id. -/
theorem load_inventory_sorted (rows : List BinRow) :
    List.Sorted capLe (load_inventory rows) ∧
    (load_inventory rows).Perm (rows.map rowToBin) ∧
    ∀ c : Nat, (load_inventory rows).filter (fun b => b.capacity == c) =
      (rows.map rowToBin).filter (fun b => b.capacity == c) :=
  ⟨List.sorted_insertionSort capLe (rows.map rowToBin),
   List.perm_insertionSort capLe (rows.map rowToBin),
   fun c => filter_insertionSort_cap c (rows.map rowToBin)⟩

/-- The recorded best total never decreases during the exploration. -/
theorem solve_best_le (max_cap : Nat) :
    ∀ (rem cur : List Package) (sz : Nat) (best : List Package × Nat),
      best.2 ≤ (solve max_cap rem cur sz best).2 := by
  intro rem
  induction rem with
  | nil =>
    intro cur sz best
    rw [solve]
    split
    · exact Nat.le_of_lt (by assumption)
    · exact Nat.le_refl _
  | cons pkg rest ih =>
    intro cur sz best
    simp only [solve]
    refine Nat.le_trans ?_ (ih cur sz _)
    have h1 : best.2 ≤ (if sz > best.2 then (cur, sz) else best).2 := by
      split
      · exact Nat.le_of_lt (by assumption)
      · exact Nat.le_refl _
    split
    · exact Nat.le_trans h1 (ih _ _ _)
    · exact h1

/-- Optimality invariant: any still-reachable extension total (the
current size plus a feasible sub-suffix) is dominated by the final best
total, because the depth-first exploration visits its node. -/
theorem solve_opt (max_cap : Nat) :
    ∀ (rem cur : List Package) (sz : Nat) (best : List Package × Nat)
      (S : List Package), S.Sublist rem → sz + sizeSum S ≤ max_cap →
      sz + sizeSum S ≤ (solve max_cap rem cur sz best).2 := by
  intro rem
  induction rem with
  | nil =>
    intro cur sz best S hS hle
    rw [List.sublist_nil.mp hS]
    simp only [sizeSum, List.map_nil, List.sum_nil, Nat.add_zero]
    rw [solve]
    split
    · exact Nat.le_refl _
    · omega
  | cons pkg rest ih =>
    intro cur sz best S hS hle
    simp only [solve]
    cases hS with
    | cons _ hS2 =>
      exact ih cur sz _ S hS2 hle
    | cons₂ _ hS2 =>
      rename_i S2
      have h4 : sz + sizeSum (pkg :: S2) = sz + pkg.size + sizeSum S2 := by
        simp [sizeSum]; omega
      have hfit : sz + pkg.size ≤ max_cap := by omega
      rw [if_pos hfit]
      have h2 := ih (cur ++ [pkg]) (sz + pkg.size)
        (if sz > best.2 then (cur, sz) else best) S2 hS2 (by omega)
      have h3 := solve_best_le max_cap rest cur sz
        (solve max_cap rest (cur ++ [pkg]) (sz + pkg.size)
          (if sz > best.2 then (cur, sz) else best))
      omega

/-- Wellformedness invariant: the best pair always records the total
size of its combination, and stays within the capacity limit. -/
theorem solve_wf (max_cap : Nat) :
    ∀ (rem cur : List Package) (sz : Nat) (best : List Package × Nat),
      sz = sizeSum cur → sz ≤ max_cap →
      best.2 = sizeSum best.1 → best.2 ≤ max_cap →
      ((solve max_cap rem cur sz best).2 = sizeSum (solve max_cap rem cur sz best).1 ∧
       (solve max_cap rem cur sz best).2 ≤ max_cap) := by
  intro rem
  induction rem with
  | nil =>
    intro cur sz best h1 h2 h3 h4
    rw [solve]
    split
    · exact ⟨h1, h2⟩
    · exact ⟨h3, h4⟩
  | cons pkg rest ih =>
    intro cur sz best h1 h2 h3 h4
    simp only [solve]
    have hb1 : (if sz > best.2 then (cur, sz) else best).2 =
        sizeSum (if sz > best.2 then (cur, sz) else best).1 ∧
        (if sz > best.2 then (cur, sz) else best).2 ≤ max_cap := by
      split
      · exact ⟨h1, h2⟩
      · exact ⟨h3, h4⟩
    by_cases hc : sz + pkg.size ≤ max_cap
    · rw [if_pos hc]
      have hcur2 : sz + pkg.size = sizeSum (cur ++ [pkg]) := by
        simp [sizeSum, h1]
      have hb2 := ih (cur ++ [pkg]) (sz + pkg.size) _ hcur2 hc hb1.1 hb1.2
      exact ih cur sz _ h1 h2 hb2.1 hb2.2
    · rw [if_neg hc]
      exact ih cur sz _ h1 h2 hb1.1 hb1.2

/-- Shape invariant: the final best combination is either the incoming
best or the current combination extended by a sublist of the remaining
packages. -/
theorem solve_shape (max_cap : Nat) :
    ∀ (rem cur : List Package) (sz : Nat) (best : List Package × Nat),
      (solve max_cap rem cur sz best).1 = best.1 ∨
      ∃ S : List Package, S.Sublist rem ∧ (solve max_cap rem cur sz best).1 = cur ++ S := by
  intro rem
  induction rem with
  | nil =>
    intro cur sz best
    rw [solve]
    split
    · exact Or.inr ⟨[], List.nil_sublist _, by simp⟩
    · exact Or.inl rfl
  | cons pkg rest ih =>
    intro cur sz best
    simp only [solve]
    have hbump : (if sz > best.2 then (cur, sz) else best).1 = cur ∨
        (if sz > best.2 then (cur, sz) else best).1 = best.1 := by
      split
      · exact Or.inl rfl
      · exact Or.inr rfl
    rcases ih cur sz (if sz + pkg.size ≤ max_cap then
        solve max_cap rest (cur ++ [pkg]) (sz + pkg.size)
          (if sz > best.2 then (cur, sz) else best)
      else (if sz > best.2 then (cur, sz) else best)) with h | ⟨S, hS, hE⟩
    · rw [h]
      by_cases hc : sz + pkg.size ≤ max_cap
      · rw [if_pos hc]
        rcases ih (cur ++ [pkg]) (sz + pkg.size)
            (if sz > best.2 then (cur, sz) else best) with h2 | ⟨S2, hS2, hE2⟩
        · rw [h2]
          rcases hbump with hb | hb
          · exact Or.inr ⟨[], List.nil_sublist _, by simp [hb]⟩
          · exact Or.inl hb
        · exact Or.inr ⟨pkg :: S2, hS2.cons₂ pkg, by rw [hE2]; simp⟩
      · rw [if_neg hc]
        rcases hbump with hb | hb
        · exact Or.inr ⟨[], List.nil_sublist _, by simp [hb]⟩
        · exact Or.inl hb
    · exact Or.inr ⟨S, hS.cons pkg, hE⟩

/-- C4: optimize_truck_space returns a subsequence of its input (each
chosen package appears, in input order) whose total size is at most
max_cap, and no sublist of the input that fits within max_cap has a
strictly larger total; on the Scenario B cargo (sizes [50, 60, 40],
limit 100) it returns exactly the boxes of sizes 60 and 40. -/
theorem optimize_truck_space_correct :
    (∀ (packages : List Package) (max_cap : Nat),
      (optimize_truck_space packages max_cap).Sublist packages ∧
      sizeSum (optimize_truck_space packages max_cap) ≤ max_cap ∧
      ∀ S : List Package, S.Sublist packages → sizeSum S ≤ max_cap →
        sizeSum S ≤ sizeSum (optimize_truck_space packages max_cap)) ∧
    optimize_truck_space cargoB 100 = [boxB, boxC] ∧
    (optimize_truck_space cargoB 100).map Package.size = [60, 40] := by
  refine ⟨fun packages max_cap => ?_, by decide, by decide⟩
  have hwf := solve_wf max_cap packages [] 0 ([], 0) rfl (Nat.zero_le _) rfl (Nat.zero_le _)
  have hshape := solve_shape max_cap packages [] 0 ([], 0)
  refine ⟨?_, ?_, ?_⟩
  · unfold optimize_truck_space
    rcases hshape with h | ⟨S, hS, hE⟩
    · rw [h]; exact List.nil_sublist _
    · rw [hE]; simpa using hS
  · unfold optimize_truck_space
    rw [← hwf.1]; exact hwf.2
  · intro S hS hle
    unfold optimize_truck_space
    rw [← hwf.1]
    simpa using solve_opt max_cap packages [] 0 ([], 0) S hS (by simpa using hle)

theorem optimize_truck_space_correct_witness :
    sizeSum [boxA] ≤ sizeSum (optimize_truck_space cargoB 100) :=
  (optimize_truck_space_correct.1 cargoB 100).2.2 [boxA] (by decide) (by decide)

/-- A successful occupy always lands within capacity: the guard admits
exactly the amounts with used_space + amount <= capacity. -/
theorem occupy_space_inv (b : StorageBin) (amount : Nat) (b2 : StorageBin)
    (h : b.occupy_space amount = some b2) : b2.used_space ≤ b2.capacity := by
  by_cases hc : b.used_space + amount > b.capacity
  · simp [StorageBin.occupy_space, hc] at h
  · simp [StorageBin.occupy_space, hc] at h
    subst h
    show b.used_space + amount ≤ b.capacity
    omega


/-- Step characterization: no bin found. -/
theorem process_package_eq_noBin (bins : List StorageBin) (pkg : Package)
    (h : find_bin_binary_search bins pkg = none) :
    process_package bins pkg = (bins, ConvEvent.noBin pkg.tracking_id) := by
  unfold process_package
  rw [h]

/-- Step characterization: bin found but the defensive occupy check
fires. -/
theorem process_package_eq_fail (bins : List StorageBin) (pkg : Package)
    (i : Nat) (target : StorageBin)
    (h : find_bin_binary_search bins pkg = some (i, target))
    (h2 : target.occupy_space pkg.size = none) :
    process_package bins pkg = (bins, ConvEvent.storeError pkg.tracking_id) := by
  unfold process_package
  rw [h]
  simp only [h2]

/-- Step characterization: successful allocation. -/
theorem process_package_eq_store (bins : List StorageBin) (pkg : Package)
    (i : Nat) (target b2 : StorageBin)
    (h : find_bin_binary_search bins pkg = some (i, target))
    (h2 : target.occupy_space pkg.size = some b2) :
    process_package bins pkg =
      (bins.set i b2, ConvEvent.stored pkg.tracking_id target.bin_id) := by
  unfold process_package
  rw [h]
  simp only [h2]

/-- One conveyor step preserves the usage invariant of every bin. -/
theorem process_package_inv (bins : List StorageBin) (pkg : Package)
    (hinv : ∀ b ∈ bins, b.used_space ≤ b.capacity) :
    ∀ b ∈ (process_package bins pkg).1, b.used_space ≤ b.capacity := by
  rcases hfind : find_bin_binary_search bins pkg with _ | ⟨i, target⟩
  · rw [process_package_eq_noBin bins pkg hfind]
    exact hinv
  · rcases hocc : StorageBin.occupy_space target pkg.size with _ | b2
    · rw [process_package_eq_fail bins pkg i target hfind hocc]
      exact hinv
    · rw [process_package_eq_store bins pkg i target b2 hfind hocc]
      intro b hb
      rcases List.mem_or_eq_of_mem_set hb with h | h
      · exact hinv b h
      · rw [h]
        exact occupy_space_inv target pkg.size b2 hocc

/-- The conveyor preserves the usage invariant across a whole batch. -/
theorem run_conveyor_inv :
    ∀ (pkgs : List Package) (bins : List StorageBin),
      (∀ b ∈ bins, b.used_space ≤ b.capacity) →
      ∀ b ∈ (run_conveyor bins pkgs).1, b.used_space ≤ b.capacity := by
  intro pkgs
  induction pkgs with
  | nil => intro bins hinv; simpa using hinv
  | cons pkg rest ih =>
    intro bins hinv
    simp only [run_conveyor]
    exact ih (process_package bins pkg).1 (process_package_inv bins pkg hinv)

/-- C6: the usage invariant is preserved by every operation: any
successful occupy_space leaves the touched bin with used_space at most
capacity (with no precondition at all), and a conveyor run over any
batch keeps every bin of a wellformed registry within capacity. -/
theorem usage_invariant :
    (∀ (b : StorageBin) (amount : Nat) (b2 : StorageBin),
      b.occupy_space amount = some b2 → b2.used_space ≤ b2.capacity) ∧
    (∀ (bins : List StorageBin) (pkgs : List Package),
      (∀ b ∈ bins, b.used_space ≤ b.capacity) →
      ∀ b ∈ (run_conveyor bins pkgs).1, b.used_space ≤ b.capacity) :=
  ⟨occupy_space_inv, fun bins pkgs h => run_conveyor_inv pkgs bins h⟩

theorem usage_invariant_witness :
    (⟨1, 50, "A1", 45⟩ : StorageBin).used_space ≤
      (⟨1, 50, "A1", 45⟩ : StorageBin).capacity :=
  usage_invariant.1 ⟨1, 50, "A1", 0⟩ 45 ⟨1, 50, "A1", 45⟩ (by decide)

/-- A failed conveyor step (no suitable bin, or the defensive
capacity-exceeded catch) leaves the bin list untouched. -/
theorem process_package_fail_frame (bins : List StorageBin) (pkg : Package)
    (hf : (process_package bins pkg).2 = ConvEvent.noBin pkg.tracking_id ∨
          (process_package bins pkg).2 = ConvEvent.storeError pkg.tracking_id) :
    (process_package bins pkg).1 = bins := by
  rcases hfind : find_bin_binary_search bins pkg with _ | ⟨i, target⟩
  · rw [process_package_eq_noBin bins pkg hfind]
  · rcases hocc : StorageBin.occupy_space target pkg.size with _ | b2
    · rw [process_package_eq_fail bins pkg i target hfind hocc]
    · rw [process_package_eq_store bins pkg i target b2 hfind hocc] at hf
      simp at hf

/-- Every event carries the tracking id of the package that produced it. -/
theorem process_package_tracking (bins : List StorageBin) (pkg : Package) :
    ((process_package bins pkg).2).trackingOf = pkg.tracking_id := by
  rcases hfind : find_bin_binary_search bins pkg with _ | ⟨i, target⟩
  · rw [process_package_eq_noBin bins pkg hfind]
    rfl
  · rcases hocc : StorageBin.occupy_space target pkg.size with _ | b2
    · rw [process_package_eq_fail bins pkg i target hfind hocc]
      rfl
    · rw [process_package_eq_store bins pkg i target b2 hfind hocc]
      rfl

/-- The conveyor emits one event per package, in arrival order. -/
theorem run_conveyor_tracking :
    ∀ (pkgs : List Package) (bins : List StorageBin),
      ((run_conveyor bins pkgs).2).map ConvEvent.trackingOf =
        pkgs.map Package.tracking_id := by
  intro pkgs
  induction pkgs with
  | nil => intro bins; rfl
  | cons pkg rest ih =>
    intro bins
    simp only [run_conveyor, List.map_cons]
    rw [process_package_tracking bins pkg, ih]

/-- C8: the conveyor drains the queue strictly in FIFO arrival order
(one event per package, in order, so no failure aborts the batch), and
a step that fails, whether because no bin qualifies or because the
defensive capacity check during occupy fires, changes no bin. -/
theorem conveyor_batch_spec :
    (∀ (bins : List StorageBin) (pkg : Package),
      ((process_package bins pkg).2 = ConvEvent.noBin pkg.tracking_id ∨
       (process_package bins pkg).2 = ConvEvent.storeError pkg.tracking_id) →
      (process_package bins pkg).1 = bins) ∧
    (∀ (bins : List StorageBin) (pkgs : List Package),
      ((run_conveyor bins pkgs).2).map ConvEvent.trackingOf =
        pkgs.map Package.tracking_id) :=
  ⟨process_package_fail_frame, fun bins pkgs => run_conveyor_tracking pkgs bins⟩

theorem conveyor_batch_spec_witness :
    (process_package [] pkgA45).1 = [] :=
  conveyor_batch_spec.1 [] pkgA45 (Or.inl (by decide))

/-- Soundness invariant of the search loop: best_fit is only ever
assigned a bin that passed the capacity and availability test, so
whatever the loop returns passed it too. -/
theorem find_loop_sound (bins : List StorageBin) (size : Nat) :
    ∀ (fuel : Nat) (low high : Int) (best : Option (Nat × StorageBin)),
      (∀ (k : Nat) (b : StorageBin), best = some (k, b) → binFits b size) →
      ∀ (k : Nat) (b : StorageBin),
        find_loop bins size fuel low high best = some (k, b) → binFits b size := by
  intro fuel
  induction fuel with
  | zero =>
    intro low high best hbest k b h
    exact hbest k b h
  | succ fuel ih =>
    intro low high best hbest k b h
    simp only [find_loop] at h
    split at h
    · split at h
      · exact hbest k b h
      · rename_i curr heq
        split at h
        · rename_i hfit
          refine ih low _ _ ?_ k b h
          intro k2 b2 he
          simp only [Option.some.injEq, Prod.mk.injEq] at he
          exact he.2 ▸ hfit
        · exact ih _ high best hbest k b h
    · exact hbest k b h

/-- C3: the allocator is sound: whenever find_bin_binary_search returns
a bin, that bin satisfies capacity >= pkg.size and available space >=
pkg.size; in Scenario D (two capacity-100 bins, used 90 and used 0, in
either order) a size-50 request returns the used-0 bin, never the
used-90 bin. -/
theorem find_best_fit_sound :
    (∀ (bins : List StorageBin) (pkg : Package) (k : Nat) (b : StorageBin),
      find_bin_binary_search bins pkg = some (k, b) →
      pkg.size ≤ b.capacity ∧ (pkg.size : Int) ≤ b.available_space) ∧
    find_bin_binary_search [binD90, binD0] pkgD = some (1, binD0) ∧
    find_bin_binary_search [binD0, binD90] pkgD = some (0, binD0) := by
  refine ⟨fun bins pkg k b h => ?_, by decide, by decide⟩
  exact find_loop_sound bins pkg.size bins.length 0 ((bins.length : Int) - 1) none
    (fun k2 b2 he => nomatch he) k b h

theorem find_best_fit_sound_witness :
    pkgD.size ≤ binD0.capacity ∧ (pkgD.size : Int) ≤ binD0.available_space :=
  find_best_fit_sound.1 [binD90, binD0] pkgD 1 binD0 (by decide)

/-- C1 counterexample: in the capacity-sorted registry with capacities
[10, 20, 30] and used space [0, 20, 30], a size-5 package fits the
first bin, yet the binary search probes the full middle bin, discards
the whole lower half, probes the full last bin, and returns none. -/
theorem find_best_fit_cex :
    List.Sorted capLe cexBins ∧
    cexBin ∈ cexBins ∧ binFits cexBin cexPkg.size ∧
    find_bin_binary_search cexBins cexPkg = none := by decide

/-- When the search window is empty the loop returns best as is, and
the invariants force the postcondition. -/
theorem find_loop_end (bins : List StorageBin) (size : Nat)
    (low high : Int) (best : Option (Nat × StorageBin))
    (hlh : high < low)
    (inv1 : ∀ (i : Nat) (hi : i < bins.length), (i : Int) < low → ¬ binFits bins[i] size)
    (inv2 : best = none → ∀ (i : Nat) (hi : i < bins.length), high < (i : Int) →
      ¬ binFits bins[i] size)
    (inv3 : ∀ (k : Nat) (b : StorageBin), best = some (k, b) →
      (k : Int) = high + 1 ∧ ∃ hk : k < bins.length, bins[k] = b ∧ binFits b size) :
    searchPost bins size best := by
  cases best with
  | none =>
    intro i hi
    by_cases hil : (i : Int) < low
    · exact inv1 i hi hil
    · exact inv2 rfl i hi (by omega)
  | some kb =>
    obtain ⟨k, b⟩ := kb
    obtain ⟨heq, hk, hget, hfit⟩ := inv3 k b rfl
    exact ⟨hk, hget, hfit, fun j hj hjk => inv1 j hj (by omega)⟩

/-- Main loop invariant of find_bin_binary_search, under the hypothesis
that the fit predicate is upward closed along the bin list (whenever a
bin fits, every bin after it fits too).  The window [low, high] carries:
everything strictly below low does not fit; if nothing is recorded,
nothing above high fits either; a recorded best sits at high + 1, fits,
and the loop, given enough fuel, ends in the postcondition: the
leftmost fitting bin, or none when no bin fits. -/
theorem find_loop_spec (bins : List StorageBin) (size : Nat)
    (hmono : ∀ (i j : Nat) (hi : i < bins.length) (hj : j < bins.length),
      i ≤ j → binFits bins[i] size → binFits bins[j] size) :
    ∀ (fuel : Nat) (low high : Int) (best : Option (Nat × StorageBin)),
      (high + 1 - low).toNat ≤ fuel →
      0 ≤ low →
      high < (bins.length : Int) →
      (∀ (i : Nat) (hi : i < bins.length), (i : Int) < low → ¬ binFits bins[i] size) →
      (best = none → ∀ (i : Nat) (hi : i < bins.length), high < (i : Int) →
        ¬ binFits bins[i] size) →
      (∀ (k : Nat) (b : StorageBin), best = some (k, b) →
        (k : Int) = high + 1 ∧ ∃ hk : k < bins.length, bins[k] = b ∧ binFits b size) →
      searchPost bins size (find_loop bins size fuel low high best) := by
  intro fuel
  induction fuel with
  | zero =>
    intro low high best hfuel hlow hhigh inv1 inv2 inv3
    simp only [find_loop]
    exact find_loop_end bins size low high best (by omega) inv1 inv2 inv3
  | succ fuel ih =>
    intro low high best hfuel hlow hhigh inv1 inv2 inv3
    simp only [find_loop]
    by_cases hlh : low ≤ high
    · rw [if_pos hlh]
      have hm1 : low ≤ (low + high) / 2 := by omega
      have hm2 : (low + high) / 2 ≤ high := by omega
      have hmn : ((low + high) / 2).toNat < bins.length := by omega
      split
      · rename_i heq
        rw [List.getElem?_eq_getElem hmn] at heq
        exact absurd heq (by simp)
      · rename_i curr heq
        rw [List.getElem?_eq_getElem hmn] at heq
        have hcurr : bins[((low + high) / 2).toNat] = curr := Option.some.inj heq
        by_cases hfit : binFits curr size
        · rw [if_pos hfit]
          refine ih low ((low + high) / 2 - 1) (some (((low + high) / 2).toNat, curr))
            (by omega) hlow (by omega) inv1 ?_ ?_
          · intro hnone
            exact absurd hnone (by simp)
          · intro k b he
            simp only [Option.some.injEq, Prod.mk.injEq] at he
            obtain ⟨hek, heb⟩ := he
            subst hek
            subst heb
            exact ⟨by omega, hmn, hcurr, hfit⟩
        · rw [if_neg hfit]
          refine ih ((low + high) / 2 + 1) high best (by omega) (by omega) hhigh
            ?_ inv2 inv3
          intro i hi hil
          by_cases hil2 : (i : Int) < low
          · exact inv1 i hi hil2
          · intro hf
            exact hfit (hcurr ▸
              hmono i (((low + high) / 2).toNat) hi hmn (by omega) hf)
    · rw [if_neg hlh]
      exact find_loop_end bins size low high best (by omega) inv1 inv2 inv3

/-- C1 amended: over a capacity-sorted registry the binary search is
correct exactly when the fit predicate is upward closed along the list
(whenever a bin fits the package, every later bin fits too — true for
instance whenever all bins are empty): then a returned bin fits and has
capacity at most that of every fitting bin, and none is returned exactly
when no bin fits.  Without that monotonicity the search can discard a
fitting smaller bin (see the counterexample). -/
theorem find_best_fit_correct (bins : List StorageBin) (pkg : Package)
    (hsorted : List.Sorted capLe bins)
    (hmono : ∀ i j : Fin bins.length, i ≤ j →
      binFits (bins.get i) pkg.size → binFits (bins.get j) pkg.size) :
    (∀ (k : Nat) (b : StorageBin), find_bin_binary_search bins pkg = some (k, b) →
      b ∈ bins ∧ binFits b pkg.size ∧
      ∀ c ∈ bins, binFits c pkg.size → b.capacity ≤ c.capacity) ∧
    (find_bin_binary_search bins pkg = none ↔ ∀ b ∈ bins, ¬ binFits b pkg.size) := by
  have hmono2 : ∀ (i j : Nat) (hi : i < bins.length) (hj : j < bins.length),
      i ≤ j → binFits bins[i] pkg.size → binFits bins[j] pkg.size :=
    fun i j hi hj hij hf => hmono ⟨i, hi⟩ ⟨j, hj⟩ hij hf
  have hspec := find_loop_spec bins pkg.size hmono2 bins.length 0
    ((bins.length : Int) - 1) none (by omega) (by omega) (by omega)
    (fun i hi hlt => absurd hlt (by omega))
    (fun _ i hi hgt => absurd hgt (by omega))
    (fun k b he => nomatch he)
  rw [show find_loop bins pkg.size bins.length 0 ((bins.length : Int) - 1) none
      = find_bin_binary_search bins pkg from rfl] at hspec
  rcases hfind : find_bin_binary_search bins pkg with _ | ⟨k, b⟩
  · rw [hfind] at hspec
    replace hspec : ∀ (i : Nat) (hi : i < bins.length), ¬ binFits bins[i] pkg.size :=
      hspec
    constructor
    · intro k b he
      exact nomatch he
    · refine ⟨fun _ b hb hf => ?_, fun _ => rfl⟩
      obtain ⟨⟨j, hj⟩, hgb⟩ := List.mem_iff_get.mp hb
      refine hspec j hj ?_
      have hjb : bins[j] = b := by simpa using hgb
      rw [hjb]
      exact hf
  · rw [hfind] at hspec
    replace hspec : ∃ hk : k < bins.length, bins[k] = b ∧ binFits b pkg.size ∧
        ∀ (j : Nat) (hj : j < bins.length), j < k → ¬ binFits bins[j] pkg.size :=
      hspec
    obtain ⟨hk, hget, hfit, hmin⟩ := hspec
    constructor
    · intro k2 b2 he
      simp only [Option.some.injEq, Prod.mk.injEq] at he
      obtain ⟨hek, heb⟩ := he
      subst hek
      subst heb
      refine ⟨hget ▸ List.getElem_mem hk, hfit, ?_⟩
      intro c hc hcfit
      obtain ⟨⟨j, hj⟩, hgc⟩ := List.mem_iff_get.mp hc
      have hjc : bins[j] = c := by simpa using hgc
      rcases Nat.lt_trichotomy j k with hjk | hjk | hjk
      · refine absurd ?_ (hmin j hj hjk)
        rw [hjc]
        exact hcfit
      · subst hjk
        rw [← hget, hjc]
      · have hle : capLe (bins.get ⟨k, hk⟩) (bins.get ⟨j, hj⟩) :=
          List.pairwise_iff_get.mp hsorted ⟨k, hk⟩ ⟨j, hj⟩ hjk
        have h1 : bins.get ⟨k, hk⟩ = b := hget
        have h2 : bins.get ⟨j, hj⟩ = c := hgc
        rw [h1, h2] at hle
        exact hle
    · constructor
      · intro hnone
        exact nomatch hnone
      · intro hall
        exact absurd hfit (hall b (hget ▸ List.getElem_mem hk))

theorem find_best_fit_correct_witness :
    find_bin_binary_search binsA pkgA45 = some (0, ⟨1, 50, "A1", 0⟩) ∧
    (⟨1, 50, "A1", 0⟩ : StorageBin).capacity ≤ (⟨2, 100, "A2", 0⟩ : StorageBin).capacity :=
  ⟨by decide,
   ((find_best_fit_correct binsA pkgA45 (by decide) (by decide)).1 0 ⟨1, 50, "A1", 0⟩
     (by decide)).2.2 ⟨2, 100, "A2", 0⟩ (by decide) (by decide)⟩
